import Mathlib

/-!
Verification of the knowledge-graph natural-language index builders.

This file gives a shallow embedding of the disambiguation/indexing pipeline of the
repository (binaries `kg-entities.rs`, `wikidata-entities.rs`, `kg-properties.rs` and
the shared `lib.rs`), and proves or refutes the frozen claims about it.

Modelling conventions:
* Rust `HashMap` values are modelled as association lists (`List (key × value)`) whose
  entry order is the insertion order of first key occurrence; `HashMap::insert` (which
  replaces an existing binding in place) is `insertRep`, the `entry().or_insert_with(Vec::new).push`
  idiom is `pushA`, and `Entry::Vacant` guarded insertion is an explicit lookup test.
  Where the Rust code iterates a `HashMap` (arbitrary order at runtime), the embedding
  iterates in this canonical insertion order; phase-level theorems are stated over
  arbitrary group lists where the claim requires order independence.
* `assert!` / `.unwrap()` panics on paths reachable from the modelled state are modelled
  by an `Option` result (`none` = the process aborts); asserts that are unreachable from
  the modelled state are noted in comments.
* A parsed input row (`KnowledgeGraphProcessor::parse_entity` in `lib.rs`, plus the
  type-chain rewrite in `kg-entities.rs` lines 139-146) is modelled as a `Rec` whose
  `qual` field is the final value of `EntityInfo::info()` (last type label, or the
  description when the type list is empty) for `kg-entities`, and the description
  (`EntityInfo::desc`) for `wikidata-entities`. Record parsing itself (regexes, tab
  splitting) is I/O glue outside the claims.
* Rust `sort_by_key` / itertools `sorted_by_key` are stable sorts; they are modelled by
  the stable insertion sort `stableSort` below. Rust string comparison (byte-wise
  lexicographic on UTF-8) agrees with lexicographic comparison of unicode scalar
  values, modelled by `ltCharList` on `String.data`.
-/

/-! ## Association-list primitives -/

/-- First-match lookup in an association list, the model of `HashMap::get`. -/
def lookupA {α : Type} [DecidableEq α] {β : Type} : List (α × β) → α → Option β
  | [], _ => none
  | (k, v) :: rest, k' => if k = k' then some v else lookupA rest k'

/-- Model of `HashMap::insert`: replace the binding in place if the key is present,
otherwise append a new binding. -/
def insertRep {α : Type} [DecidableEq α] {β : Type} : List (α × β) → α → β → List (α × β)
  | [], k, v => [(k, v)]
  | (k', v') :: rest, k, v =>
    if k' = k then (k, v) :: rest else (k', v') :: insertRep rest k v

/-- The `entry(k).or_insert_with(Vec::new).push(v)` idiom. -/
def pushA {α : Type} [DecidableEq α] {β : Type} : List (α × List β) → α → β → List (α × List β)
  | [], k, v => [(k, [v])]
  | (k', l) :: rest, k, v =>
    if k' = k then (k', l ++ [v]) :: rest else (k', l) :: pushA rest k v

/-! ## Stable sort (model of Rust's stable `sort_by_key` / itertools `sorted_by_key`) -/

/-- Insert `x` after every element `y` of the (sorted) list with `le y x`, so that
elements comparing equal keep their original relative order. -/
def stInsert {α : Type} (le : α → α → Bool) (x : α) : List α → List α
  | [] => [x]
  | y :: ys => if le y x then y :: stInsert le x ys else x :: y :: ys

/-- Stable insertion sort: ascending with respect to `le`. -/
def stableSort {α : Type} (le : α → α → Bool) (l : List α) : List α :=
  l.foldl (fun acc x => stInsert le x acc) []

/-! ## String ordering (Rust `str` `Ord`: lexicographic) -/

/-- Lexicographic strict order on character lists, by unicode scalar value. -/
def ltCharList : List Char → List Char → Bool
  | [], [] => false
  | [], _ :: _ => true
  | _ :: _, [] => false
  | a :: as, b :: bs => Nat.blt a.toNat b.toNat || (a.toNat == b.toNat && ltCharList as bs)

def strLtB (a b : String) : Bool := ltCharList a.data b.data

def strLeB (a b : String) : Bool := strLtB a b || a == b

/-! ## Records and the alias pool

`Rec` models one parsed entity row: identifier, primary label, qualifier
(`EntityInfo::info()` for `kg-entities`, the description for `wikidata-entities`),
stored alias list and frequency count. -/

structure Rec where
  id : String
  label : String
  qual : String
  aliases : List String
  count : Nat
deriving DecidableEq

/-- Model of `ent_infos.get(ent)`: the record with the given id (ids are unique per run,
enforced by `assert!(existing.is_none())` at parse time). -/
def recOf (rs : List Rec) (e : String) : Option Rec := rs.find? (fun r => r.id == e)

/-- Model of `ent_infos.get(ent).unwrap().count`; total with default 0, the `unwrap` never
fails in the pipeline because every consulted id comes from a parsed record. -/
def cntOf (rs : List Rec) (e : String) : Nat := ((recOf rs e).map (fun r => r.count)).getD 0

/-- Model of `ent_infos.get(ent).unwrap().info()` (resp. `.desc`). -/
def qualOf (rs : List Rec) (e : String) : String := ((recOf rs e).map (fun r => r.qual)).getD ""

abbrev Pool := List (String × List String)

/-- The pool `aliases_to_ents`: for every record (in input order), push the record id once per
listed alias occurrence (`kg-entities.rs` lines 124-131, `wikidata-entities.rs`
lines 133-140). Built only when `check_for_popular_aliases` is on. -/
def aliasPool (rs : List Rec) : Pool :=
  rs.foldl (fun m r => r.aliases.foldl (fun m a => pushA m a r.id) m) []

/-- Model of `aliases_to_ents.retain(|_, ents| ents.len() <= 1)` (`kg-entities.rs` line 151,
`wikidata-entities.rs` line 156). -/
def retainPool (p : Pool) : Pool := p.filter (fun g => decide (g.2.length ≤ 1))

/-- Rust `Iterator::max_by_key`: the last element attaining the maximal key. -/
def maxByCnt (l : List (String × Nat)) : Option (String × Nat) :=
  l.foldl
    (fun acc x =>
      match acc with
      | none => some x
      | some m => if m.2 ≤ x.2 then some x else some m)
    none

/-- The Popular-Alias Oracle `check_for_more_popular_alias` (`kg-entities.rs`
lines 153-170, identically `wikidata-entities.rs` lines 158-179): among the retained
alias-pool entries for `label` other than `ent` itself, take the most frequent; return
it only when it is strictly more frequent than `ent`. -/
def checkForMorePopularAlias (pool : Pool) (rs : List Rec) (label ent : String) :
    Option String :=
  match lookupA pool label with
  | none => none
  | some aliasEnts =>
    match maxByCnt ((aliasEnts.filter (fun e => e != ent)).map (fun e => (e, cntOf rs e))) with
    | none => none
    | some (aliasEnt, aliasCount) =>
      if cntOf rs ent < aliasCount then some aliasEnt else none

/-! ## The `kg-entities` engine

The final index `label_to_ent` maps a `SurfaceKey` `(text, Option qualifier)` to an
`Ent` value tagging the assignment kind (`lib.rs` `Ent`: `Label`, `LabelInfo`,
`Alias`, `AliasInfo` — here `lbl`, `lblInfo`, `als`, `alsInfo`) together with the
owning entity id. -/

abbrev SKey := String × Option String

inductive EntV where
  | lbl (e : String)
  | lblInfo (e : String)
  | als (e : String)
  | alsInfo (e : String)
deriving DecidableEq

abbrev Index := List (SKey × EntV)

/-- Model of `assert!(map.insert(k, v).is_none())`: the run aborts (`none`) when the key is
already bound, otherwise the binding is appended. -/
def insertAssert (m : Index) (k : SKey) (v : EntV) : Option Index :=
  if (lookupA m k).isSome then none else some (m ++ [(k, v)])

/-- The grouping `label_to_ents`: partition record ids by raw label, in first-occurrence order
(`kg-entities.rs` lines 119-122). -/
def labelGroups (rs : List Rec) : List (String × List String) :=
  rs.foldl (fun m r => pushA m r.label r.id) []

abbrev Pending := List ((String × String) × List (Nat × String))

/-- The `for ent in entities` tail of the first pass (`kg-entities.rs` lines 193-207):
skip entities with empty qualifier, skip when the formatted string `label (info)` is
already a bare key of the index, otherwise push `(count, ent)` into
`label_info_to_ents` under the key `(label, info)`. -/
def kgPushInfo (rs : List Rec) (idx : Index) (pend : Pending) (label : String)
    (ents : List String) : Pending :=
  ents.foldl
    (fun pd e =>
      let info := qualOf rs e
      if info = "" then pd
      else if (lookupA idx (label ++ " (" ++ info ++ ")", (none : Option String))).isSome then pd
      else pushA pd (label, info) (cntOf rs e, e))
    pend

/-- First pass "adding unique labels" (`kg-entities.rs` lines 181-208): a singleton
label group commits the bare key `(label, none)` unless the oracle (when enabled)
vetoes; every other member flows into the qualified pool via `kgPushInfo`. The empty
group is unreachable (`assert!(!entities.is_empty())`). -/
def kgPhase1 (check : Bool) (pool : Pool) (rs : List Rec) :
    List (String × List String) → Index → Pending → Option (Index × Pending)
  | [], idx, pend => some (idx, pend)
  | (label, ents) :: gs, idx, pend =>
    match ents with
    | [] => none
    | [e] =>
      if !check || (checkForMorePopularAlias pool rs label e).isNone then
        match insertAssert idx (label, none) (EntV.lbl e) with
        | none => none
        | some idx' => kgPhase1 check pool rs gs idx' pend
      else
        kgPhase1 check pool rs gs idx (kgPushInfo rs idx pend label [e])
    | es => kgPhase1 check pool rs gs idx (kgPushInfo rs idx pend label es)

/-- Model of `entities.iter().map(|(c, _)| c).max().copied().unwrap_or(0)`. -/
def maxCnt (l : List (Nat × String)) : Nat := l.foldr (fun x m => max x.1 m) 0

/-- The traversal key of the second pass (`kg-entities.rs` lines 222-225):
`(Reverse(max), entities.len(), *key)` ascending; `key` is the `(label, info)` pair
under Rust's lexicographic pair/str ordering. -/
def pendLeB (a b : (String × String) × List (Nat × String)) : Bool :=
  Nat.blt (maxCnt b.2) (maxCnt a.2)
    || (maxCnt a.2 == maxCnt b.2
        && (Nat.blt a.2.length b.2.length
            || (a.2.length == b.2.length
                && (strLtB a.1.1 b.1.1 || (a.1.1 == b.1.1 && strLeB a.1.2 b.1.2)))))

/-- Second pass "adding label-info pairs" (`kg-entities.rs` lines 219-263), iterating
the qualified pool in `pendLeB` order. A singleton group commits the qualified pair
key `(label, some info)` when the bare key is taken or the (enabled) oracle vetoes,
otherwise the bare key `(label, none)`; with `keep_most_common_non_unique` a
multi-member group does the same for its most frequent member and records the rest in
`ents_left`; otherwise all members land in `ents_left`. Empty groups are unreachable
(`iter_mut().next().unwrap()`). -/
def kgPhase2 (check keep : Bool) (pool : Pool) (rs : List Rec) :
    Pending → Index → List String → Option (Index × List String)
  | [], idx, left => some (idx, left)
  | ((label, info), ents) :: pend, idx, left =>
    match ents with
    | [] => none
    | [(_, e)] =>
      if (lookupA idx (label, (none : Option String))).isSome
          || (check && (checkForMorePopularAlias pool rs label e).isSome) then
        match insertAssert idx (label, some info) (EntV.lblInfo e) with
        | none => none
        | some idx' => kgPhase2 check keep pool rs pend idx' left
      else
        match insertAssert idx (label, none) (EntV.lbl e) with
        | none => none
        | some idx' => kgPhase2 check keep pool rs pend idx' left
    | es =>
      if keep then
        let sorted := stableSort (fun a b => Nat.ble a.1 b.1) es
        match sorted.getLast? with
        | none => none
        | some (_, e) =>
          if (lookupA idx (label, (none : Option String))).isSome
              || (check && (checkForMorePopularAlias pool rs label e).isSome) then
            match insertAssert idx (label, some info) (EntV.lblInfo e) with
            | none => none
            | some idx' =>
              kgPhase2 check keep pool rs pend idx' (left ++ (sorted.dropLast.map (fun p => p.2)))
          else
            match insertAssert idx (label, none) (EntV.lbl e) with
            | none => none
            | some idx' =>
              kgPhase2 check keep pool rs pend idx' (left ++ (sorted.dropLast.map (fun p => p.2)))
      else
        kgPhase2 check keep pool rs pend idx (left ++ (es.map (fun p => p.2)))

/-- The alias back-fill traversal key (`kg-entities.rs` line 292):
`(Reverse(info.count), key)` ascending, i.e. count descending with ties broken by
ascending id. -/
def kgAliasLeB (a b : Rec) : Bool :=
  Nat.blt b.count a.count || (a.count == b.count && strLeB a.id b.id)

def kgAliasOrder (rs : List Rec) : List Rec := stableSort kgAliasLeB rs

/-- Alias back-fill "adding aliases" (`kg-entities.rs` lines 290-307): walk the
records in `kgAliasOrder`; for each stored alias commit `(alias, none)` if vacant,
else (for a non-empty qualifier) commit `(alias, some qual)` if vacant. -/
def kgPhase3 (rs : List Rec) (idx : Index) : Index :=
  (kgAliasOrder rs).foldl
    (fun idx r =>
      r.aliases.foldl
        (fun idx a =>
          if (lookupA idx (a, (none : Option String))).isNone then
            idx ++ [((a, none), EntV.als r.id)]
          else if r.qual = "" then idx
          else if (lookupA idx (a, some r.qual)).isNone then
            idx ++ [((a, some r.qual), EntV.alsInfo r.id)]
          else idx)
        idx)
    idx

/-- The full `kg-entities` index computation (`main`), from parsed records to the
final `label_to_ent`; `none` models an `assert!` failure. -/
def runKG (check keep : Bool) (rs : List Rec) : Option Index :=
  let pool := if check then retainPool (aliasPool rs) else []
  match kgPhase1 check pool rs (labelGroups rs) [] [] with
  | none => none
  | some (idx, pend) =>
    match kgPhase2 check keep pool rs (stableSort pendLeB pend) idx [] with
    | none => none
    | some (idx, _) => some (kgPhase3 rs idx)

/-! ## The `wikidata-entities` engine

Keys of `label_to_ent` are plain strings here (the qualified key is the formatted
string `label (desc)`), values are the `Ent` enum of `wikidata-entities.rs`. -/

inductive WEnt where
  | lbl (e : String)
  | lblDesc (e : String)
  | als (e : String)
  | alsDesc (e : String)
deriving DecidableEq

abbrev WIndex := List (String × WEnt)

abbrev WPending := List (String × List String)

/-- The `for ent in entities` tail of the first pass (`wikidata-entities.rs`
lines 206-219): skip entities with empty description or whose formatted
`label (desc)` is already a key, otherwise push into `label_desc_to_ents`. -/
def wdPushPend (rs : List Rec) (idx : WIndex) (pend : WPending) (label : String)
    (ents : List String) : WPending :=
  ents.foldl
    (fun pd e =>
      let desc := qualOf rs e
      if desc = "" then pd
      else
        let labelDesc := label ++ " (" ++ desc ++ ")"
        if (lookupA idx labelDesc).isSome then pd
        else pushA pd labelDesc e)
    pend

/-- Ascending-by-count comparator (`entities.sort_by_key(|ent| count)`). -/
def cntLeB (rs : List Rec) (a b : String) : Bool := Nat.ble (cntOf rs a) (cntOf rs b)

/-- One label group of the first pass (`wikidata-entities.rs` lines 185-220): a
singleton group commits the bare label unless the enabled oracle vetoes; a
multi-member group with `keep_most_common_non_unique` sorts by count and commits the
most frequent member unless vetoed; all uncommitted members flow into
`label_desc_to_ents` via `wdPushPend`. Empty groups are unreachable
(`assert!(!entities.is_empty())`). -/
def wdGroupStep (check keep : Bool) (pool : Pool) (rs : List Rec)
    (st : WIndex × WPending) (label : String) (ents : List String) : WIndex × WPending :=
  let idx := st.1
  let pend := st.2
  match ents with
  | [] => (idx, pend)
  | [e] =>
    if !check || (checkForMorePopularAlias pool rs label e).isNone then
      (insertRep idx label (WEnt.lbl e), pend)
    else
      (idx, wdPushPend rs idx pend label [e])
  | es =>
    if keep then
      let sorted := stableSort (cntLeB rs) es
      match sorted.getLast? with
      | none => (idx, pend)
      | some w =>
        if !check || (checkForMorePopularAlias pool rs label w).isNone then
          let idx' := insertRep idx label (WEnt.lbl w)
          (idx', wdPushPend rs idx' pend label sorted.dropLast)
        else
          (idx, wdPushPend rs idx pend label sorted)
    else
      (idx, wdPushPend rs idx pend label ents)

def wdLabelGroups (rs : List Rec) : List (String × List String) :=
  rs.foldl (fun m r => pushA m r.label r.id) []

/-- First pass of `wikidata-entities.rs` (lines 185-220) over all label groups. -/
def wdPhase1 (check keep : Bool) (pool : Pool) (rs : List Rec) : WIndex × WPending :=
  (wdLabelGroups rs).foldl (fun st g => wdGroupStep check keep pool rs st g.1 g.2) ([], [])

/-- Second pass of `wikidata-entities.rs` (lines 225-237): a singleton
`label (desc)` group is committed unconditionally by a plain `HashMap::insert`
(which replaces any existing binding); with `keep_most_common_non_unique` a
multi-member group commits its most frequent member; the rest goes to `ents_left`. -/
def wdPhase2 (keep : Bool) (rs : List Rec) :
    WPending → WIndex → List String → WIndex × List String
  | [], idx, left => (idx, left)
  | (labelDesc, ents) :: pend, idx, left =>
    match ents with
    | [] => wdPhase2 keep rs pend idx left
    | [e] => wdPhase2 keep rs pend (insertRep idx labelDesc (WEnt.lblDesc e)) left
    | es =>
      if keep then
        let sorted := stableSort (cntLeB rs) es
        match sorted.getLast? with
        | none => wdPhase2 keep rs pend idx left
        | some w =>
          wdPhase2 keep rs pend (insertRep idx labelDesc (WEnt.lblDesc w))
            (left ++ sorted.dropLast)
      else
        wdPhase2 keep rs pend idx (left ++ es)

/-- The alias traversal of `wikidata-entities.rs` (lines 259-262):
`sorted_by_key(|(ent, info)| (ents_left.contains(ent), info.count)).rev()` — records
in `ents_left` sort after the rest, then by ascending count, and the whole order is
reversed, so leftover records are visited first. -/
def wdAliasLeB (left : List String) (a b : Rec) : Bool :=
  (!(left.contains a.id) && left.contains b.id)
    || (left.contains a.id == left.contains b.id && Nat.ble a.count b.count)

def wdAliasOrder (left : List String) (rs : List Rec) : List Rec :=
  (stableSort (wdAliasLeB left) rs).reverse

/-- Alias back-fill of `wikidata-entities.rs` (lines 259-279). The
`ents_left.remove(ent)` calls only affect the printed statistics, not the index, and
are omitted. -/
def wdPhase3 (rs : List Rec) (left : List String) (idx : WIndex) : WIndex :=
  (wdAliasOrder left rs).foldl
    (fun idx r =>
      r.aliases.foldl
        (fun idx a =>
          if (lookupA idx a).isNone then idx ++ [(a, WEnt.als r.id)]
          else if r.qual = "" then idx
          else
            let ad := a ++ " (" ++ r.qual ++ ")"
            if (lookupA idx ad).isNone then idx ++ [(ad, WEnt.alsDesc r.id)] else idx)
        idx)
    idx

/-- The full `wikidata-entities` index computation (`main`), from parsed records to
the final `label_to_ent`. The `unique_by` sanity asserts after the two passes (lines
222, 239) compare statistics only and are omitted. -/
def runWD (check keep : Bool) (rs : List Rec) : WIndex :=
  let pool := if check then retainPool (aliasPool rs) else []
  let st := wdPhase1 check keep pool rs
  let st2 := wdPhase2 keep rs st.2 st.1 []
  wdPhase3 rs st2.2 st2.1

/-! ## The `kg-properties` output projection (for the assertion claim) -/

inductive PropV where
  | lbl (s : String)
  | als (s : String)
deriving DecidableEq

/-- Model of `Prop::as_str`. -/
def propIdOf : PropV → String
  | .lbl s => s
  | .als s => s

/-- Model of `matches!(p, Prop::Label(_))`. -/
def isLbl : PropV → Bool
  | .lbl _ => true
  | .als _ => false

structure PRec where
  id : String
  label : String
  aliases : List String
  count : Nat
deriving DecidableEq

def pCntOf (infos : List (String × PRec)) (p : String) : Nat :=
  ((lookupA infos p).map (fun r => r.count)).getD 0

/-- The parse loop of `kg-properties.rs` (lines 60-77): `label_to_prop` keeps, per
label, the property with the larger count (an occupied entry is replaced only on a
strictly larger count); `prop_infos` is keyed by property id. -/
def buildLabelToProp (rs : List PRec) : (List (String × PropV)) × (List (String × PRec)) :=
  rs.foldl
    (fun st r =>
      let ltp := st.1
      let infos := st.2
      let ltp' :=
        match lookupA ltp r.label with
        | some existing =>
          if pCntOf infos (propIdOf existing) < r.count then
            insertRep ltp r.label (PropV.lbl r.id)
          else ltp
        | none => insertRep ltp r.label (PropV.lbl r.id)
      (ltp', insertRep infos r.id r))
    ([], [])

/-- The map `alias_counts` (`kg-properties.rs` lines 83-89): occurrences of each alias across
all property records, counted with multiplicity. -/
def aliasCountsP (infos : List (String × PRec)) : List (String × Nat) :=
  infos.foldl
    (fun m pr =>
      pr.2.aliases.foldl
        (fun m a =>
          match lookupA m a with
          | some n => insertRep m a (n + 1)
          | none => insertRep m a 1)
        m)
    []

/-- The alias loop of `kg-properties.rs` (lines 90-99): aliases with global count 1
are added as `Prop::Alias` keys when vacant. -/
def addAliasesProps (infos : List (String × PRec)) (ltp : List (String × PropV)) :
    List (String × PropV) :=
  infos.foldl
    (fun ltp pr =>
      pr.2.aliases.foldl
        (fun ltp a =>
          if (lookupA (aliasCountsP infos) a).getD 0 ≠ 1 then ltp
          else if (lookupA ltp a).isSome then ltp
          else ltp ++ [(a, PropV.als pr.1)])
        ltp)
    ltp

/-- The grouping `output_dict` (`kg-properties.rs` lines 113-122): group the index by property id;
the carried value records the surface string and whether it came from the label or an
alias. -/
def outputDictP (ltp : List (String × PropV)) : List (String × List PropV) :=
  ltp.foldl
    (fun od e =>
      pushA od (propIdOf e.2)
        (match e.2 with
         | .lbl _ => PropV.lbl e.1
         | .als _ => PropV.als e.1))
    []

/-- The `Prop` `Ord` instance (`lib.rs` lines 80-88): `Label` sorts before `Alias`. -/
def propLeB (a b : PropV) : Bool :=
  Nat.ble (if isLbl a then 0 else 1) (if isLbl b then 0 else 1)

/-- The popped head of the emission step (`kg-properties.rs` lines 123-129):
`labels.sort(); labels.reverse(); labels.pop()` — the popped element is the first
element of the ascending sort, asserted to be a `Prop::Label`. -/
def kgPropsPoppedFirst (noAliases : Bool) (rs : List PRec) (p : String) : Option PropV :=
  let built := buildLabelToProp rs
  let ltp := if noAliases then built.1 else addAliasesProps built.2 built.1
  (lookupA (outputDictP ltp) p).bind
    (fun labels => ((stableSort propLeB labels).reverse).getLast?)

/-! ## Redirect ingestion of `kg-entities.rs` (lines 49-95)

A redirect line is modelled as its two tab-separated fields, the target field already
split at "; " (string splitting is format glue). `cap` abstracts
`kg.ent_pattern.captures`: the extracted identifier, or `none` when the pattern does
not match. -/

/-- The target-side mapping (`kg-entities.rs` lines 69-85): every target is captured
with `.unwrap_or_else(|| panic!(...))` — one non-matching target aborts the run. -/
def mapCaps (cap : String → Option String) : List String → Option (List String)
  | [] => some []
  | t :: ts =>
    match cap t with
    | none => none
    | some e => (mapCaps cap ts).map (fun l => e :: l)

/-- The redirect loop (`kg-entities.rs` lines 60-90): a line whose source does not
match the pattern is skipped (`continue`); a line any of whose targets does not match
is fatal (`panic!`, modelled as `none`); a line with an empty target list is skipped;
otherwise `redirects.insert(ent, redirs)`. -/
def processRedirects (cap : String → Option String) :
    List (String × List String) → List (String × List String) →
    Option (List (String × List String))
  | [], acc => some acc
  | (src, tgts) :: rest, acc =>
    match cap src with
    | none => processRedirects cap rest acc
    | some ent =>
      match mapCaps cap tgts with
      | none => none
      | some redirs =>
        if redirs.isEmpty then processRedirects cap rest acc
        else processRedirects cap rest (insertRep acc ent redirs)

/-! ## Derived measures used by the theorems -/

/-- Number of occurrences of `a` across all stored alias lists, counted with
multiplicity (one per listing, not one per distinct record). -/
def occCount (rs : List Rec) (a : String) : Nat :=
  (rs.map (fun r => r.aliases.count a)).sum

/-! ## Concrete inputs for the counterexamples and scenario claims -/

/-- C6 scenario: two entities labeled "Apple", qualified "fruit" (frequency 10) and
"company" (frequency 90), no aliases. -/
def c6recs : List Rec :=
  [⟨"Qfruit", "Apple", "fruit", [], 10⟩, ⟨"Qcompany", "Apple", "company", [], 90⟩]

/-- C1 counterexample input: a record whose label is literally "Apple (fruit)" plus
two records labeled "Apple" whose label group is processed first. -/
def c1recs : List Rec :=
  [⟨"QB", "Apple", "fruit", [], 1⟩, ⟨"QC", "Apple", "other", [], 2⟩,
   ⟨"QA", "Apple (fruit)", "", [], 5⟩]

/-- C2 counterexample input: a singleton qualified-pool group whose bare label stays
free. -/
def c2recs : List Rec := [⟨"QA", "L", "x", [], 1⟩, ⟨"QB", "L", "", [], 2⟩]

/-- C4 counterexample input: `QA` is the most frequent record, but `QB1` and `QB2`
end in the leftover set. -/
def c4recs : List Rec :=
  [⟨"QA", "M", "", ["x"], 100⟩, ⟨"QB1", "L", "d", ["x"], 1⟩, ⟨"QB2", "L", "d", [], 2⟩]

/-- C5 counterexample input: a two-member label group whose most frequent member has
an empty qualifier. -/
def c5recs : List Rec := [⟨"QA", "L", "", [], 90⟩, ⟨"QB", "L", "x", [], 10⟩]

/-- C5 witness input for the wikidata variant. -/
def c5wrecs : List Rec := [⟨"QA", "L", "dx", [], 10⟩, ⟨"QB", "L", "dy", [], 90⟩]

/-- C7 counterexample input: one record listing the same alias twice. -/
def c7rec : Rec := ⟨"QA", "A", "", ["x", "x"], 5⟩

/-- C3 witness input: entity `QX` has alias "m"; entity `QE` is labeled "m" with the
same frequency (a tie). -/
def c3recs : List Rec := [⟨"QX", "X", "", ["m"], 5⟩, ⟨"QE", "m", "", [], 5⟩]

/-- A concrete capture function for the redirect counterexample: only "Q1" and "Q2"
are identifier-shaped. -/
def capQ (s : String) : Option String := if s = "Q1" ∨ s = "Q2" then some s else none

/-- C10 failing input: properties `P1` and `P2` share the label "foo"; `P2` is more
frequent, `P1` has the globally unique alias "bar". -/
def c10recs : List PRec := [⟨"P1", "foo", ["bar"], 10⟩, ⟨"P2", "foo", [], 90⟩]

/-! # Theorems -/

/-! ## C6: the Apple qualifier-escalation scenario -/

/-- C6: with `keep_most_common_non_unique` enabled (and either setting of
`check_for_popular_aliases`), both engines map the bare key "Apple" to the company
id and the qualified key to the fruit id, and create no "Apple (company)" key: in
`kg-entities` the index binds `("Apple", none)` to the company and
`("Apple", some "fruit")` to the fruit, with neither `("Apple", some "company")` nor
a bare `("Apple (company)", none)` present; in `wikidata-entities` the string keys
"Apple" and "Apple (fruit)" are bound accordingly and "Apple (company)" is absent. -/
theorem c6_apple_scenario : ∀ check : Bool,
    (runKG check true c6recs).bind
        (fun i => lookupA i (("Apple" : String), (none : Option String)))
      = some (EntV.lbl "Qcompany")
    ∧ (runKG check true c6recs).bind (fun i => lookupA i ("Apple", some "fruit"))
      = some (EntV.lblInfo "Qfruit")
    ∧ (runKG check true c6recs).bind (fun i => lookupA i ("Apple", some "company"))
      = none
    ∧ (runKG check true c6recs).bind
        (fun i => lookupA i ("Apple (company)", (none : Option String)))
      = none
    ∧ lookupA (runWD check true c6recs) "Apple" = some (WEnt.lbl "Qcompany")
    ∧ lookupA (runWD check true c6recs) "Apple (fruit)" = some (WEnt.lblDesc "Qfruit")
    ∧ lookupA (runWD check true c6recs) "Apple (company)" = none := by
  intro check
  cases check <;> exact ⟨rfl, rfl, rfl, rfl, rfl, rfl, rfl⟩

/-! ## C1: uniqueness and first-writer-wins -/

/-- C1 counterexample: in the `wikidata-entities` engine the key "Apple (fruit)" is
committed to `QA` (its own label) during the first pass and then overwritten with
`QB` by the unconditional qualified-label insert of the second pass, so a later
commit does change an already committed key's id. -/
theorem c1_cex_wd_overwrites_committed_key :
    lookupA (wdPhase1 false false [] c1recs).1 "Apple (fruit)" = some (WEnt.lbl "QA")
    ∧ lookupA (runWD false false c1recs) "Apple (fruit)" = some (WEnt.lblDesc "QB") :=
  ⟨rfl, rfl⟩

/-! ## C2: bare-key priority for singleton qualified groups -/

/-- C2 counterexample: in the `wikidata-entities` engine a singleton qualified-pool
group always commits the qualified string key, even though the bare label "L" is
free and no oracle is enabled — the bare key is never created. -/
theorem c2_cex_wd_always_qualifies :
    lookupA (runWD false false c2recs) "L" = none
    ∧ lookupA (runWD false false c2recs) "L (x)" = some (WEnt.lblDesc "QA") :=
  ⟨rfl, rfl⟩

/-! ## C4: alias back-fill traversal order -/

/-- C4 counterexample: in the `wikidata-entities` engine the leftover records `QB1`,
`QB2` are visited before the strictly more frequent `QA` (the traversal key is
leftover-membership first), so the shared alias "x" is committed to `QB1` with
frequency 1 although `QA` has frequency 100. -/
theorem c4_cex_wd_leftover_first :
    lookupA (runWD false false c4recs) "x" = some (WEnt.als "QB1")
    ∧ (wdAliasOrder ["QB1", "QB2"] c4recs).map Rec.id = ["QB2", "QB1", "QA"]
    ∧ cntOf c4recs "QB1" < cntOf c4recs "QA" :=
  ⟨rfl, rfl, by decide⟩

/-! ## C5: most-frequent member of a multi-member label group -/

/-- C5 counterexample: in the `kg-entities` engine a multi-member label group commits
no bare key in the label pass even with `keep_most_common_non_unique` on; the
most frequent member `QA` (frequency 90, empty qualifier) is dropped entirely, and
the bare key "L" ends up committed to the less frequent `QB` by the qualified pass. -/
theorem c5_cex_kg_drops_most_frequent :
    runKG false true c5recs = some [((("L" : String), (none : Option String)), EntV.lbl "QB")]
    ∧ cntOf c5recs "QB" < cntOf c5recs "QA" :=
  ⟨rfl, by decide⟩

/-! ## C7: alias-group filtering -/

/-- C7 counterexample: a single record listing the alias "x" twice produces a pool
group with two occurrences of the same id, which `retain` then discards, although
only one distinct record references the alias. -/
theorem c7_cex_duplicate_listing_discarded :
    aliasPool [c7rec] = [("x", ["QA", "QA"])]
    ∧ retainPool (aliasPool [c7rec]) = []
    ∧ (["QA", "QA"] : List String).dedup = ["QA"] :=
  ⟨rfl, rfl, by decide⟩

/-! ## C8: redirect error handling -/

/-- C8 counterexample: a redirect line whose target "BAD" does not match the
identifier pattern is fatal — the whole run aborts and the following well-formed
line is not processed (the claim expects `some [("Q2", ["Q1"])]`). -/
theorem c8_cex_bad_target_is_fatal :
    processRedirects capQ [("Q1", ["BAD"]), ("Q2", ["Q1"])] [] = none
    ∧ processRedirects capQ [("BAD", ["Q1"]), ("Q2", ["Q1"])] [] = some [("Q2", ["Q1"])] :=
  ⟨rfl, rfl⟩

/-! ## C10: the `kg-properties` own-label assertion -/

/-- C10: on the failing input, property `P1` loses its label "foo" to the more
frequent `P2` but still gains the alias key "bar", so its collected key set contains
no own-label key; the popped first element is the alias "bar" and the guarded
assertion `matches!(label, Prop::Label(_))` fails, aborting the run. -/
theorem c10_assert_fails_on_alias_only_property :
    kgPropsPoppedFirst false c10recs "P1" = some (PropV.als "bar")
    ∧ (kgPropsPoppedFirst false c10recs "P1").map isLbl = some false
    ∧ kgPropsPoppedFirst false c10recs "P2" = some (PropV.lbl "foo") :=
  ⟨rfl, rfl, rfl⟩

/-! ## Association-list lemmas -/

theorem lookupA_append_some {α : Type} [DecidableEq α] {β : Type}
    {m m2 : List (α × β)} {k : α} {v : β} (h : lookupA m k = some v) :
    lookupA (m ++ m2) k = some v := by
  induction m with
  | nil => simp [lookupA] at h
  | cons p rest ih =>
    obtain ⟨k', v'⟩ := p
    by_cases hk : k' = k
    · simp_all [lookupA]
    · simp only [lookupA, if_neg hk, List.cons_append] at h ⊢
      exact ih h

theorem lookupA_eq_none_iff {α : Type} [DecidableEq α] {β : Type}
    {m : List (α × β)} {k : α} :
    lookupA m k = none ↔ k ∉ m.map Prod.fst := by
  induction m with
  | nil => simp [lookupA]
  | cons p rest ih =>
    obtain ⟨k', v'⟩ := p
    by_cases hk : k' = k
    · subst hk
      simp [lookupA]
    · simp [lookupA, if_neg hk, ih, Ne.symm hk]

theorem lookupA_isSome_iff {α : Type} [DecidableEq α] {β : Type}
    {m : List (α × β)} {k : α} :
    (lookupA m k).isSome ↔ k ∈ m.map Prod.fst := by
  rcases h : lookupA m k with _ | v
  · simp [lookupA_eq_none_iff.mp h]
  · have : ¬ lookupA m k = none := by simp [h]
    simpa using (not_iff_not.mpr (lookupA_eq_none_iff (m := m) (k := k))).mp this

theorem lookupA_append_fresh {α : Type} [DecidableEq α] {β : Type}
    {m : List (α × β)} {k : α} {v : β} (h : lookupA m k = none) :
    lookupA (m ++ [(k, v)]) k = some v := by
  induction m with
  | nil => simp [lookupA]
  | cons p rest ih =>
    obtain ⟨k', v'⟩ := p
    by_cases hk : k' = k
    · simp_all [lookupA]
    · simp only [lookupA, if_neg hk, List.cons_append] at h ⊢
      exact ih h

theorem lookupA_mem {α : Type} [DecidableEq α] {β : Type}
    {m : List (α × β)} {k : α} {v : β} (h : lookupA m k = some v) : (k, v) ∈ m := by
  induction m with
  | nil => simp [lookupA] at h
  | cons p rest ih =>
    obtain ⟨k', v'⟩ := p
    by_cases hk : k' = k
    · subst hk
      simp only [lookupA, if_pos rfl] at h
      simp [← Option.some.inj h]
    · simp only [lookupA, if_neg hk] at h
      exact List.mem_cons_of_mem _ (ih h)

theorem mem_lookupA_of_nodup {α : Type} [DecidableEq α] {β : Type}
    {m : List (α × β)} {k : α} {v : β} (hnd : (m.map Prod.fst).Nodup)
    (h : (k, v) ∈ m) : lookupA m k = some v := by
  induction m with
  | nil => simp at h
  | cons p rest ih =>
    obtain ⟨k', v'⟩ := p
    simp only [List.map_cons, List.nodup_cons] at hnd
    rcases List.mem_cons.mp h with heq | hmem
    · have hk : k' = k := congrArg Prod.fst heq.symm
      have hv : v' = v := congrArg Prod.snd heq.symm
      subst hk
      subst hv
      simp [lookupA]
    · have hk : k' ≠ k := by
        rintro rfl
        exact hnd.1 (List.mem_map.mpr ⟨(k', v), hmem, rfl⟩)
      simp only [lookupA, if_neg hk]
      exact ih hnd.2 hmem

/-! ## Lemmas about `pushA` -/

theorem pushA_keys_mem {α : Type} [DecidableEq α] {β : Type}
    (m : List (α × List β)) (k : α) (v : β) {k' : α} :
    k' ∈ (pushA m k v).map Prod.fst ↔ k' ∈ m.map Prod.fst ∨ k' = k := by
  induction m with
  | nil => simp [pushA]
  | cons p rest ih =>
    obtain ⟨k0, l0⟩ := p
    by_cases hk : k0 = k
    · subst hk
      simp [pushA]
      tauto
    · simp [pushA, if_neg hk, ih]
      tauto

theorem pushA_keys_nodup {α : Type} [DecidableEq α] {β : Type}
    {m : List (α × List β)} (k : α) (v : β) (h : (m.map Prod.fst).Nodup) :
    ((pushA m k v).map Prod.fst).Nodup := by
  induction m with
  | nil => simp [pushA]
  | cons p rest ih =>
    obtain ⟨k0, l0⟩ := p
    simp only [List.map_cons, List.nodup_cons] at h
    by_cases hk : k0 = k
    · subst hk
      simpa [pushA] using h
    · simp only [pushA, if_neg hk, List.map_cons, List.nodup_cons]
      refine ⟨fun hmem => ?_, ih h.2⟩
      rcases (pushA_keys_mem rest k v).mp hmem with hin | rfl
      · exact h.1 hin
      · exact hk rfl

theorem pushA_vals_ne_nil {α : Type} [DecidableEq α] {β : Type}
    {m : List (α × List β)} (k : α) (v : β) (h : ∀ p ∈ m, p.2 ≠ []) :
    ∀ p ∈ pushA m k v, p.2 ≠ [] := by
  induction m with
  | nil =>
    intro p hp
    simp only [pushA, List.mem_singleton] at hp
    rw [hp]
    simp
  | cons q rest ih =>
    obtain ⟨k0, l0⟩ := q
    intro p hp
    by_cases hk : k0 = k
    · subst hk
      simp only [pushA, if_pos rfl] at hp
      rcases List.mem_cons.mp hp with h1 | hp2
      · rw [h1]
        simp
      · exact h p (List.mem_cons_of_mem _ hp2)
    · simp only [pushA, if_neg hk] at hp
      rcases List.mem_cons.mp hp with h1 | hp2
      · rw [h1]
        exact h (k0, l0) (List.mem_cons_self _ _)
      · exact ih (fun q hq => h q (List.mem_cons_of_mem _ hq)) p hp2

theorem lookupA_pushA_self {α : Type} [DecidableEq α] {β : Type}
    (m : List (α × List β)) (k : α) (v : β) :
    lookupA (pushA m k v) k = some (((lookupA m k).getD []) ++ [v]) := by
  induction m with
  | nil => simp [pushA, lookupA]
  | cons p rest ih =>
    obtain ⟨k0, l0⟩ := p
    by_cases hk : k0 = k
    · subst hk
      simp [pushA, lookupA]
    · simp [pushA, if_neg hk, lookupA, ih]

theorem lookupA_pushA_ne {α : Type} [DecidableEq α] {β : Type}
    (m : List (α × List β)) (k : α) (v : β) {k' : α} (hk : k ≠ k') :
    lookupA (pushA m k v) k' = lookupA m k' := by
  induction m with
  | nil => simp [pushA, lookupA, hk]
  | cons p rest ih =>
    obtain ⟨k0, l0⟩ := p
    by_cases h0 : k0 = k
    · subst h0
      simp [pushA, lookupA, hk]
    · simp [pushA, if_neg h0, lookupA, ih]

/-! ## Stable-sort lemmas -/

theorem stInsert_perm {α : Type} (le : α → α → Bool) (x : α) (l : List α) :
    List.Perm (stInsert le x l) (x :: l) := by
  induction l with
  | nil => simp [stInsert]
  | cons y ys ih =>
    by_cases h : le y x = true
    · rw [stInsert, if_pos h]
      exact (List.Perm.cons y ih).trans (List.Perm.swap x y ys)
    · rw [stInsert, if_neg h]

theorem stableSort_perm {α : Type} (le : α → α → Bool) (l : List α) :
    List.Perm (stableSort le l) l := by
  suffices h : ∀ acc : List α,
      List.Perm (l.foldl (fun acc x => stInsert le x acc) acc) (acc ++ l) by
    simpa using h []
  induction l with
  | nil =>
    intro acc
    simp
  | cons x xs ih =>
    intro acc
    have h1 : List.Perm ((x :: xs).foldl (fun acc x => stInsert le x acc) acc)
        (stInsert le x acc ++ xs) := ih _
    refine h1.trans ?_
    have h2 : List.Perm (stInsert le x acc ++ xs) ((x :: acc) ++ xs) :=
      (stInsert_perm le x acc).append_right xs
    exact h2.trans List.perm_middle.symm

theorem stInsert_pairwise {α : Type} {le : α → α → Bool}
    (htrans : ∀ a b c, le a b = true → le b c = true → le a c = true)
    (htotal : ∀ a b, le a b || le b a) (x : α) {l : List α}
    (h : l.Pairwise (fun a b => le a b = true)) :
    (stInsert le x l).Pairwise (fun a b => le a b = true) := by
  induction l with
  | nil => simp [stInsert]
  | cons y ys ih =>
    rcases List.pairwise_cons.mp h with ⟨hy, hys⟩
    by_cases hle : le y x = true
    · rw [stInsert, if_pos hle]
      refine List.pairwise_cons.mpr ⟨?_, ih hys⟩
      intro z hz
      rcases List.mem_cons.mp ((stInsert_perm le x ys).mem_iff.mp hz) with rfl | hzys
      · exact hle
      · exact hy z hzys
    · rw [stInsert, if_neg hle]
      have hxy : le x y = true := by
        rcases Bool.or_eq_true_iff.mp (htotal x y) with h1 | h1
        · exact h1
        · exact absurd h1 hle
      refine List.pairwise_cons.mpr ⟨?_, h⟩
      intro z hz
      rcases List.mem_cons.mp hz with rfl | hzys
      · exact hxy
      · exact htrans x y z hxy (hy z hzys)

theorem stableSort_pairwise {α : Type} {le : α → α → Bool}
    (htrans : ∀ a b c, le a b = true → le b c = true → le a c = true)
    (htotal : ∀ a b, le a b || le b a) (l : List α) :
    (stableSort le l).Pairwise (fun a b => le a b = true) := by
  suffices h : ∀ acc : List α, acc.Pairwise (fun a b => le a b = true) →
      (l.foldl (fun acc x => stInsert le x acc) acc).Pairwise (fun a b => le a b = true) by
    exact h [] (by simp)
  induction l with
  | nil =>
    intro acc h
    simpa using h
  | cons x xs ih =>
    intro acc h
    exact ih _ (stInsert_pairwise htrans htotal x h)

theorem pairwise_le_getLast {α : Type} {P : α → α → Prop} {l : List α} {w : α}
    (h : l.Pairwise P) (hw : l.getLast? = some w) :
    ∀ a ∈ l, a = w ∨ P a w := by
  induction l with
  | nil => simp at hw
  | cons x xs ih =>
    rcases List.pairwise_cons.mp h with ⟨hx, hxs⟩
    cases xs with
    | nil =>
      simp only [List.getLast?_singleton, Option.some.injEq] at hw
      intro a ha
      rcases List.mem_cons.mp ha with rfl | hmem
      · left
        exact hw
      · simp at hmem
    | cons y ys =>
      rw [List.getLast?_cons_cons] at hw
      intro a ha
      rcases List.mem_cons.mp ha with rfl | hmem
      · right
        have hwmem : w ∈ y :: ys := by
          have hne : (y :: ys) ≠ [] := by simp
          have h' : some ((y :: ys).getLast hne) = some w :=
            (List.getLast?_eq_getLast (y :: ys) hne).symm.trans hw
          have hmem2 := List.getLast_mem hne
          rwa [Option.some.inj h'] at hmem2
        exact hx w hwmem
      · exact ih hxs hw a hmem

theorem getLast?_decomp {α : Type} {l : List α} {w : α} (h : l.getLast? = some w) :
    l.dropLast ++ [w] = l := by
  induction l with
  | nil => simp at h
  | cons x xs ih =>
    cases xs with
    | nil =>
      simp only [List.getLast?_singleton, Option.some.injEq] at h
      simp [h]
    | cons y ys =>
      rw [List.getLast?_cons_cons] at h
      have h2 := ih h
      simp only [List.dropLast_cons₂, List.cons_append, h2]

theorem stableSort_getLast_max {α : Type} {le : α → α → Bool}
    (htrans : ∀ a b c, le a b = true → le b c = true → le a c = true)
    (htotal : ∀ a b, le a b || le b a) {l : List α} {w : α}
    (hw : (stableSort le l).getLast? = some w) :
    ∀ a ∈ l, le a w = true := by
  have hp := stableSort_pairwise htrans htotal l
  intro a ha
  have hmem : a ∈ stableSort le l := (stableSort_perm le l).mem_iff.mpr ha
  rcases pairwise_le_getLast hp hw a hmem with rfl | hle
  · have := htotal a a
    simpa using this
  · exact hle

/-! ## Lexicographic string-order lemmas -/

theorem charToNat_inj {a b : Char} (h : a.toNat = b.toNat) : a = b :=
  Char.ext (UInt32.toNat.inj h)

theorem ltCharList_trans :
    ∀ as bs cs : List Char, ltCharList as bs = true → ltCharList bs cs = true →
      ltCharList as cs = true := by
  intro as
  induction as with
  | nil =>
    intro bs cs h1 h2
    cases bs with
    | nil => simp [ltCharList] at h1
    | cons b bs' =>
      cases cs with
      | nil => simp [ltCharList] at h2
      | cons c cs' => simp [ltCharList]
  | cons a as' ih =>
    intro bs cs h1 h2
    cases bs with
    | nil => simp [ltCharList] at h1
    | cons b bs' =>
      cases cs with
      | nil => simp [ltCharList] at h2
      | cons c cs' =>
        simp only [ltCharList, Bool.or_eq_true, Bool.and_eq_true, Nat.blt_eq,
          beq_iff_eq] at h1 h2 ⊢
        rcases h1 with h1 | ⟨h1e, h1r⟩
        · rcases h2 with h2 | ⟨h2e, h2r⟩
          · exact Or.inl (Nat.lt_trans h1 h2)
          · exact Or.inl (h2e ▸ h1)
        · rcases h2 with h2 | ⟨h2e, h2r⟩
          · exact Or.inl (h1e ▸ h2)
          · exact Or.inr ⟨h1e.trans h2e, ih bs' cs' h1r h2r⟩

theorem ltCharList_trichotomy :
    ∀ as bs : List Char, ltCharList as bs = true ∨ as = bs ∨ ltCharList bs as = true := by
  intro as
  induction as with
  | nil =>
    intro bs
    cases bs with
    | nil => exact Or.inr (Or.inl rfl)
    | cons b bs' => exact Or.inl (by simp [ltCharList])
  | cons a as' ih =>
    intro bs
    cases bs with
    | nil => exact Or.inr (Or.inr (by simp [ltCharList]))
    | cons b bs' =>
      rcases Nat.lt_trichotomy a.toNat b.toNat with hlt | heq | hgt
      · exact Or.inl (by simp [ltCharList, Nat.blt_eq, hlt])
      · rcases ih bs' with h | h | h
        · exact Or.inl (by simp [ltCharList, Nat.blt_eq, heq, h])
        · exact Or.inr (Or.inl (by rw [charToNat_inj heq, h]))
        · exact Or.inr (Or.inr (by simp [ltCharList, Nat.blt_eq, heq.symm, h]))
      · exact Or.inr (Or.inr (by simp [ltCharList, Nat.blt_eq, hgt]))

theorem strLeB_total (a b : String) : strLeB a b || strLeB b a := by
  rcases ltCharList_trichotomy a.data b.data with h | h | h
  · simp [strLeB, strLtB, h]
  · have : a = b := by
      cases a
      cases b
      exact congrArg String.mk h
    simp [strLeB, strLtB, this]
  · simp [strLeB, strLtB, h]

theorem strLeB_trans {a b c : String} (h1 : strLeB a b = true) (h2 : strLeB b c = true) :
    strLeB a c = true := by
  simp only [strLeB, Bool.or_eq_true, beq_iff_eq] at h1 h2 ⊢
  rcases h1 with h1 | rfl
  · rcases h2 with h2 | rfl
    · exact Or.inl (ltCharList_trans _ _ _ h1 h2)
    · exact Or.inl h1
  · rcases h2 with h2 | rfl
    · exact Or.inl h2
    · exact Or.inr rfl

/-! ## Comparator facts for the alias back-fill order of kg-entities -/

theorem kgAliasLeB_total (a b : Rec) : kgAliasLeB a b || kgAliasLeB b a := by
  simp only [kgAliasLeB, Bool.or_eq_true, Bool.and_eq_true, Nat.blt_eq, beq_iff_eq]
  rcases Nat.lt_trichotomy a.count b.count with h | h | h
  · tauto
  · rcases Bool.or_eq_true_iff.mp (strLeB_total a.id b.id) with h2 | h2 <;> tauto
  · tauto

theorem kgAliasLeB_trans (a b c : Rec) (h1 : kgAliasLeB a b = true)
    (h2 : kgAliasLeB b c = true) : kgAliasLeB a c = true := by
  simp only [kgAliasLeB, Bool.or_eq_true, Bool.and_eq_true, Nat.blt_eq, beq_iff_eq] at h1 h2 ⊢
  rcases h1 with h1 | ⟨h1e, h1s⟩
  · rcases h2 with h2 | ⟨h2e, h2s⟩
    · exact Or.inl (Nat.lt_trans h2 h1)
    · exact Or.inl (h2e ▸ h1)
  · rcases h2 with h2 | ⟨h2e, h2s⟩
    · exact Or.inl (h1e ▸ h2)
    · exact Or.inr ⟨h1e.trans h2e, strLeB_trans h1s h2s⟩

theorem cntLeB_total (rs : List Rec) (a b : String) : cntLeB rs a b || cntLeB rs b a := by
  simp only [cntLeB, Bool.or_eq_true, Nat.ble_eq]
  exact Nat.le_total _ _

theorem cntLeB_trans (rs : List Rec) (a b c : String) (h1 : cntLeB rs a b = true)
    (h2 : cntLeB rs b c = true) : cntLeB rs a c = true := by
  simp only [cntLeB, Nat.ble_eq] at h1 h2 ⊢
  exact Nat.le_trans h1 h2

/-! ## More lookup lemmas -/

theorem lookupA_append {α : Type} [DecidableEq α] {β : Type}
    (m m2 : List (α × β)) (k : α) :
    lookupA (m ++ m2) k =
      match lookupA m k with
      | some v => some v
      | none => lookupA m2 k := by
  induction m with
  | nil => simp [lookupA]
  | cons p rest ih =>
    obtain ⟨k', v'⟩ := p
    by_cases hk : k' = k
    · simp [lookupA, hk]
    · simp [lookupA, hk, ih]

theorem lookupA_append_single_ne {α : Type} [DecidableEq α] {β : Type}
    (m : List (α × β)) {k k' : α} (v : β) (hk : k' ≠ k) :
    lookupA (m ++ [(k, v)]) k' = lookupA m k' := by
  rw [lookupA_append]
  rcases h : lookupA m k' with _ | w
  · simp [lookupA, Ne.symm hk]
  · simp

theorem insertAssert_some {m : Index} {k : SKey} {v : EntV} {m' : Index}
    (h : insertAssert m k v = some m') : lookupA m k = none ∧ m' = m ++ [(k, v)] := by
  by_cases hl : (lookupA m k).isSome
  · simp [insertAssert, hl] at h
  · rw [Option.not_isSome_iff_eq_none] at hl
    refine ⟨hl, ?_⟩
    rw [insertAssert, hl] at h
    simp only [Option.isSome_none, Bool.false_eq_true, if_false, Option.some.injEq] at h
    exact h.symm

theorem insertAssert_of_fresh {m : Index} {k : SKey} (v : EntV) (h : lookupA m k = none) :
    insertAssert m k v = some (m ++ [(k, v)]) := by
  simp [insertAssert, h]

/-! ## A generic foldl invariant-preservation helper -/

theorem foldl_preserve {α σ : Type} {P : σ → Prop} {f : σ → α → σ}
    (hstep : ∀ s a, P s → P (f s a)) :
    ∀ (l : List α) (s : σ), P s → P (l.foldl f s) := by
  intro l
  induction l with
  | nil =>
    intro s h
    simpa using h
  | cons x xs ih =>
    intro s h
    exact ih _ (hstep s x h)

/-! ## C4 (amended): the kg-entities alias back-fill traversal -/

/-- C4 (amended, `kg-entities` part): the alias back-fill traversal visits exactly
the input records (a permutation) and in an order where every earlier record either
has strictly greater frequency than every later one or ties with it and has a
lexicographically smaller-or-equal id — nothing but `(count, id)` determines the
position. -/
theorem kg_alias_backfill_order (rs : List Rec) :
    List.Perm (kgAliasOrder rs) rs ∧
    (kgAliasOrder rs).Pairwise
      (fun a b => b.count < a.count ∨ (a.count = b.count ∧ strLeB a.id b.id = true)) := by
  refine ⟨stableSort_perm _ _, ?_⟩
  have hp := stableSort_pairwise kgAliasLeB_trans kgAliasLeB_total rs
  refine hp.imp ?_
  intro a b h
  simpa only [kgAliasLeB, Bool.or_eq_true, Bool.and_eq_true, Nat.blt_eq, beq_iff_eq] using h

/-! ## kg-entities pipeline invariants (for C1) -/

theorem kgPushInfo_good (rs : List Rec) (idx : Index) (label : String) (ents : List String)
    (pend : Pending) (h1 : (pend.map Prod.fst).Nodup) (h2 : ∀ p ∈ pend, p.2 ≠ []) :
    ((kgPushInfo rs idx pend label ents).map Prod.fst).Nodup ∧
      (∀ p ∈ kgPushInfo rs idx pend label ents, p.2 ≠ []) := by
  refine foldl_preserve
    (P := fun pd : Pending => (pd.map Prod.fst).Nodup ∧ ∀ p ∈ pd, p.2 ≠ []) ?_ ents pend
    ⟨h1, h2⟩
  intro pd e hP
  dsimp only
  split_ifs with hq hl
  · exact hP
  · exact hP
  · exact ⟨pushA_keys_nodup _ _ hP.1, pushA_vals_ne_nil _ _ hP.2⟩

theorem kgPhase1_spec (check : Bool) (pool : Pool) (rs : List Rec) :
    ∀ (gs : List (String × List String)) (idx : Index) (pend : Pending),
      (gs.map Prod.fst).Nodup →
      (∀ g ∈ gs, g.2 ≠ []) →
      (∀ g ∈ gs, lookupA idx ((g.1 : String), (none : Option String)) = none) →
      (idx.map Prod.fst).Nodup →
      (∀ k ∈ idx.map Prod.fst, k.2 = (none : Option String)) →
      (pend.map Prod.fst).Nodup →
      (∀ p ∈ pend, p.2 ≠ []) →
      ∃ out : Index × Pending, kgPhase1 check pool rs gs idx pend = some out ∧
        (out.1.map Prod.fst).Nodup ∧
        (∀ k ∈ out.1.map Prod.fst, k.2 = (none : Option String)) ∧
        (out.2.map Prod.fst).Nodup ∧
        (∀ p ∈ out.2, p.2 ≠ []) := by
  intro gs
  induction gs with
  | nil =>
    intro idx pend _ _ _ hi1 hi2 hp1 hp2
    exact ⟨(idx, pend), rfl, hi1, hi2, hp1, hp2⟩
  | cons g gs ih =>
    obtain ⟨label, ents⟩ := g
    intro idx pend hg1 hg2 hg3 hi1 hi2 hp1 hp2
    simp only [List.map_cons, List.nodup_cons] at hg1
    have hfresh : lookupA idx ((label : String), (none : Option String)) = none :=
      hg3 (label, ents) (List.mem_cons_self _ _)
    rcases ents with _ | ⟨e, rest⟩
    · exact absurd rfl (hg2 (label, []) (List.mem_cons_self _ _))
    rcases rest with _ | ⟨e2, es⟩
    · rw [kgPhase1]
      by_cases hc : (!check || (checkForMorePopularAlias pool rs label e).isNone) = true
      · rw [if_pos hc, insertAssert_of_fresh _ hfresh]
        have hkm : ((label, (none : Option String))) ∉ idx.map Prod.fst :=
          lookupA_eq_none_iff.mp hfresh
        refine ih (idx ++ [((label, none), EntV.lbl e)]) pend hg1.2
          (fun g hg => hg2 g (List.mem_cons_of_mem _ hg)) ?_ ?_ ?_ hp1 hp2
        · intro g hg
          have hne : (g.1, (none : Option String)) ≠ (label, (none : Option String)) := by
            intro hcon
            have hfst : g.1 = label := congrArg Prod.fst hcon
            exact hg1.1 (hfst ▸ List.mem_map.mpr ⟨g, hg, rfl⟩)
          rw [lookupA_append_single_ne _ _ hne]
          exact hg3 g (List.mem_cons_of_mem _ hg)
        · rw [List.map_append]
          refine List.Nodup.append hi1 (by simp) ?_
          intro a ha hb
          simp only [List.map_cons, List.map_nil, List.mem_singleton] at hb
          subst hb
          exact hkm ha
        · intro k hk
          simp only [List.map_append, List.map_cons, List.map_nil, List.mem_append,
            List.mem_singleton] at hk
          rcases hk with hk | rfl
          · exact hi2 k hk
          · rfl
      · rw [if_neg hc]
        have hgood := kgPushInfo_good rs idx label [e] pend hp1 hp2
        exact ih idx (kgPushInfo rs idx pend label [e]) hg1.2
          (fun g hg => hg2 g (List.mem_cons_of_mem _ hg))
          (fun g hg => hg3 g (List.mem_cons_of_mem _ hg)) hi1 hi2 hgood.1 hgood.2
    · have heq : kgPhase1 check pool rs ((label, e :: e2 :: es) :: gs) idx pend
          = kgPhase1 check pool rs gs idx (kgPushInfo rs idx pend label (e :: e2 :: es)) := rfl
      rw [heq]
      have hgood := kgPushInfo_good rs idx label (e :: e2 :: es) pend hp1 hp2
      exact ih idx (kgPushInfo rs idx pend label (e :: e2 :: es)) hg1.2
        (fun g hg => hg2 g (List.mem_cons_of_mem _ hg))
        (fun g hg => hg3 g (List.mem_cons_of_mem _ hg)) hi1 hi2 hgood.1 hgood.2

theorem stableSort_getLast_exists {α : Type} (le : α → α → Bool) {l : List α}
    (h : l ≠ []) : ∃ w, (stableSort le l).getLast? = some w := by
  have hlen : (stableSort le l).length = l.length := (stableSort_perm le l).length_eq
  rcases hs : stableSort le l with _ | ⟨a, as⟩
  · rw [hs] at hlen
    exact absurd (List.length_eq_zero.mp hlen.symm) h
  · exact ⟨(a :: as).getLast (by simp), List.getLast?_eq_getLast _ _⟩

theorem kgPhase2_spec (check keep : Bool) (pool : Pool) (rs : List Rec) :
    ∀ (pend : Pending) (idx : Index) (left : List String),
      (pend.map Prod.fst).Nodup →
      (∀ p ∈ pend, p.2 ≠ []) →
      (∀ q ∈ pend.map Prod.fst, lookupA idx ((q.1 : String), some q.2) = none) →
      (idx.map Prod.fst).Nodup →
      ∃ out : Index × List String, kgPhase2 check keep pool rs pend idx left = some out ∧
        (out.1.map Prod.fst).Nodup := by
  intro pend
  induction pend with
  | nil =>
    intro idx left _ _ _ hi
    exact ⟨(idx, left), rfl, hi⟩
  | cons g pend ih =>
    obtain ⟨⟨label, info⟩, ents⟩ := g
    intro idx left hp1 hp2 hp3 hi1
    simp only [List.map_cons, List.nodup_cons] at hp1
    have hfreshQ : lookupA idx ((label : String), some info) = none :=
      hp3 (label, info) (by simp)
    have htailQ : ∀ key : SKey, (key = ((label : String), some info) ∨ key.2 = none) →
        ∀ (v : EntV), ∀ q ∈ pend.map Prod.fst,
          lookupA (idx ++ [(key, v)]) ((q.1 : String), some q.2) = none := by
      intro key hkey v q hq
      have hne : ((q.1 : String), some q.2) ≠ key := by
        rcases hkey with rfl | h2
        · intro hcon
          have h1 : q.1 = label := congrArg Prod.fst hcon
          have h2 : q.2 = info := Option.some.inj (congrArg Prod.snd hcon)
          exact hp1.1 (by rw [← h1, ← h2]; exact hq)
        · intro hcon
          rw [← hcon] at h2
          simp at h2
      rw [lookupA_append_single_ne _ _ hne]
      exact hp3 q (List.mem_cons_of_mem _ hq)
    rcases ents with _ | ⟨p1, rest⟩
    · exact absurd rfl (hp2 ((label, info), []) (List.mem_cons_self _ _))
    rcases rest with _ | ⟨p2, ps⟩
    · obtain ⟨c, e⟩ := p1
      rw [kgPhase2]
      by_cases hcond : ((lookupA idx ((label : String), (none : Option String))).isSome
          || (check && (checkForMorePopularAlias pool rs label e).isSome)) = true
      · rw [if_pos hcond, insertAssert_of_fresh _ hfreshQ]
        refine ih (idx ++ [((label, some info), EntV.lblInfo e)]) left hp1.2
          (fun p hp => hp2 p (List.mem_cons_of_mem _ hp))
          (htailQ _ (Or.inl rfl) _)
          ?_
        rw [List.map_append]
        refine List.Nodup.append hi1 (by simp) ?_
        intro a ha hb
        simp only [List.map_cons, List.map_nil, List.mem_singleton] at hb
        subst hb
        exact (lookupA_eq_none_iff.mp hfreshQ) ha
      · rw [if_neg hcond]
        have hfreshB : lookupA idx ((label : String), (none : Option String)) = none := by
          have : ¬ (lookupA idx ((label : String), (none : Option String))).isSome = true := by
            intro hs
            exact hcond (by rw [hs]; simp)
          exact Option.not_isSome_iff_eq_none.mp this
        rw [insertAssert_of_fresh _ hfreshB]
        refine ih (idx ++ [((label, none), EntV.lbl e)]) left hp1.2
          (fun p hp => hp2 p (List.mem_cons_of_mem _ hp))
          (htailQ _ (Or.inr rfl) _)
          ?_
        rw [List.map_append]
        refine List.Nodup.append hi1 (by simp) ?_
        intro a ha hb
        simp only [List.map_cons, List.map_nil, List.mem_singleton] at hb
        subst hb
        exact (lookupA_eq_none_iff.mp hfreshB) ha
    · cases keep with
      | false =>
        have heq : kgPhase2 check false pool rs (((label, info), p1 :: p2 :: ps) :: pend) idx left
            = kgPhase2 check false pool rs pend idx
                (left ++ ((p1 :: p2 :: ps).map (fun p => p.2))) := rfl
        rw [heq]
        exact ih idx (left ++ ((p1 :: p2 :: ps).map (fun p => p.2))) hp1.2
          (fun p hp => hp2 p (List.mem_cons_of_mem _ hp))
          (fun q hq => hp3 q (List.mem_cons_of_mem _ hq)) hi1
      | true =>
        obtain ⟨w, hL⟩ := stableSort_getLast_exists
          (fun a b : Nat × String => Nat.ble a.1 b.1) (l := p1 :: p2 :: ps) (by simp)
        obtain ⟨c, e⟩ := w
        simp only [kgPhase2, hL]
        by_cases hcond : ((lookupA idx ((label : String), (none : Option String))).isSome
            || (check && (checkForMorePopularAlias pool rs label e).isSome)) = true
        · rw [if_pos hcond, insertAssert_of_fresh _ hfreshQ]
          refine ih (idx ++ [((label, some info), EntV.lblInfo e)]) _ hp1.2
            (fun p hp => hp2 p (List.mem_cons_of_mem _ hp))
            (htailQ _ (Or.inl rfl) _)
            ?_
          rw [List.map_append]
          refine List.Nodup.append hi1 (by simp) ?_
          intro a ha hb
          simp only [List.map_cons, List.map_nil, List.mem_singleton] at hb
          subst hb
          exact (lookupA_eq_none_iff.mp hfreshQ) ha
        · rw [if_neg hcond]
          have hfreshB : lookupA idx ((label : String), (none : Option String)) = none := by
            have : ¬ (lookupA idx ((label : String), (none : Option String))).isSome = true := by
              intro hs
              exact hcond (by rw [hs]; simp)
            exact Option.not_isSome_iff_eq_none.mp this
          rw [insertAssert_of_fresh _ hfreshB]
          refine ih (idx ++ [((label, none), EntV.lbl e)]) _ hp1.2
            (fun p hp => hp2 p (List.mem_cons_of_mem _ hp))
            (htailQ _ (Or.inr rfl) _)
            ?_
          rw [List.map_append]
          refine List.Nodup.append hi1 (by simp) ?_
          intro a ha hb
          simp only [List.map_cons, List.map_nil, List.mem_singleton] at hb
          subst hb
          exact (lookupA_eq_none_iff.mp hfreshB) ha

theorem kgPhase3_nodup (rs : List Rec) (idx : Index) (h : (idx.map Prod.fst).Nodup) :
    ((kgPhase3 rs idx).map Prod.fst).Nodup := by
  refine foldl_preserve (P := fun i : Index => (i.map Prod.fst).Nodup) ?_ _ idx h
  intro i r hi
  refine foldl_preserve (P := fun i : Index => (i.map Prod.fst).Nodup) ?_ _ i hi
  intro j a hj
  dsimp only
  split_ifs with h1 h2 h3
  · rw [List.map_append]
    refine List.Nodup.append hj (by simp) ?_
    intro x hx hb
    simp only [List.map_cons, List.map_nil, List.mem_singleton] at hb
    subst hb
    exact (lookupA_eq_none_iff.mp (Option.isNone_iff_eq_none.mp h1)) hx
  · exact hj
  · rw [List.map_append]
    refine List.Nodup.append hj (by simp) ?_
    intro x hx hb
    simp only [List.map_cons, List.map_nil, List.mem_singleton] at hb
    subst hb
    exact (lookupA_eq_none_iff.mp (Option.isNone_iff_eq_none.mp h3)) hx
  · exact hj

theorem kgPhase3_mono (rs : List Rec) (idx : Index) (k : SKey) (v : EntV)
    (h : lookupA idx k = some v) : lookupA (kgPhase3 rs idx) k = some v := by
  refine foldl_preserve (P := fun i : Index => lookupA i k = some v) ?_ _ idx h
  intro i r hi
  refine foldl_preserve (P := fun i : Index => lookupA i k = some v) ?_ _ i hi
  intro j a hj
  dsimp only
  split_ifs with h1 h2 h3
  · exact lookupA_append_some hj
  · exact hj
  · exact lookupA_append_some hj
  · exact hj

theorem wdPhase3_mono (rs : List Rec) (left : List String) (idx : WIndex) (k : String)
    (v : WEnt) (h : lookupA idx k = some v) : lookupA (wdPhase3 rs left idx) k = some v := by
  refine foldl_preserve (P := fun i : WIndex => lookupA i k = some v) ?_ _ idx h
  intro i r hi
  refine foldl_preserve (P := fun i : WIndex => lookupA i k = some v) ?_ _ i hi
  intro j a hj
  dsimp only
  split_ifs with h1 h2 h3
  · exact lookupA_append_some hj
  · exact hj
  · exact lookupA_append_some hj
  · exact hj

theorem kgPhase1_mono (check : Bool) (pool : Pool) (rs : List Rec) :
    ∀ (gs : List (String × List String)) (idx : Index) (pend : Pending)
      (out : Index × Pending),
      kgPhase1 check pool rs gs idx pend = some out →
      ∀ k v, lookupA idx k = some v → lookupA out.1 k = some v := by
  intro gs
  induction gs with
  | nil =>
    intro idx pend out h k v hk
    rw [kgPhase1] at h
    cases h
    exact hk
  | cons g gs ih =>
    obtain ⟨label, ents⟩ := g
    intro idx pend out h k v hk
    rcases ents with _ | ⟨e, rest⟩
    · rw [kgPhase1] at h
      cases h
    rcases rest with _ | ⟨e2, es⟩
    · rw [kgPhase1] at h
      by_cases hc : (!check || (checkForMorePopularAlias pool rs label e).isNone) = true
      · rw [if_pos hc] at h
        cases hins : insertAssert idx ((label : String), (none : Option String)) (EntV.lbl e) with
        | none =>
          rw [hins] at h
          cases h
        | some idx' =>
          rw [hins] at h
          obtain ⟨hfresh, rfl⟩ := insertAssert_some hins
          exact ih _ _ out h k v (lookupA_append_some hk)
      · rw [if_neg hc] at h
        exact ih _ _ out h k v hk
    · have heq : kgPhase1 check pool rs ((label, e :: e2 :: es) :: gs) idx pend
          = kgPhase1 check pool rs gs idx (kgPushInfo rs idx pend label (e :: e2 :: es)) := rfl
      rw [heq] at h
      exact ih _ _ out h k v hk

theorem kgPhase2_mono (check keep : Bool) (pool : Pool) (rs : List Rec) :
    ∀ (pend : Pending) (idx : Index) (left : List String) (out : Index × List String),
      kgPhase2 check keep pool rs pend idx left = some out →
      ∀ k v, lookupA idx k = some v → lookupA out.1 k = some v := by
  intro pend
  induction pend with
  | nil =>
    intro idx left out h k v hk
    rw [kgPhase2] at h
    cases h
    exact hk
  | cons g pend ih =>
    obtain ⟨⟨label, info⟩, ents⟩ := g
    intro idx left out h k v hk
    rcases ents with _ | ⟨p1, rest⟩
    · rw [kgPhase2] at h
      cases h
    rcases rest with _ | ⟨p2, ps⟩
    · obtain ⟨c, e⟩ := p1
      rw [kgPhase2] at h
      by_cases hcond : ((lookupA idx ((label : String), (none : Option String))).isSome
          || (check && (checkForMorePopularAlias pool rs label e).isSome)) = true
      · rw [if_pos hcond] at h
        cases hins : insertAssert idx ((label : String), some info) (EntV.lblInfo e) with
        | none =>
          rw [hins] at h
          cases h
        | some idx' =>
          rw [hins] at h
          obtain ⟨hfresh, rfl⟩ := insertAssert_some hins
          exact ih _ _ out h k v (lookupA_append_some hk)
      · rw [if_neg hcond] at h
        cases hins : insertAssert idx ((label : String), (none : Option String)) (EntV.lbl e) with
        | none =>
          rw [hins] at h
          cases h
        | some idx' =>
          rw [hins] at h
          obtain ⟨hfresh, rfl⟩ := insertAssert_some hins
          exact ih _ _ out h k v (lookupA_append_some hk)
    · cases keep with
      | false =>
        have heq : kgPhase2 check false pool rs (((label, info), p1 :: p2 :: ps) :: pend) idx left
            = kgPhase2 check false pool rs pend idx
                (left ++ ((p1 :: p2 :: ps).map (fun p => p.2))) := rfl
        rw [heq] at h
        exact ih _ _ out h k v hk
      | true =>
        rcases hL : (stableSort (fun a b : Nat × String => Nat.ble a.1 b.1)
            (p1 :: p2 :: ps)).getLast? with _ | ⟨c, e⟩
        · simp only [kgPhase2, hL] at h
          simp at h
        · simp only [kgPhase2, hL] at h
          by_cases hcond : ((lookupA idx ((label : String), (none : Option String))).isSome
              || (check && (checkForMorePopularAlias pool rs label e).isSome)) = true
          · rw [if_pos hcond] at h
            cases hins : insertAssert idx ((label : String), some info) (EntV.lblInfo e) with
            | none =>
              rw [hins] at h
              cases h
            | some idx' =>
              rw [hins] at h
              obtain ⟨hfresh, rfl⟩ := insertAssert_some hins
              exact ih _ _ out h k v (lookupA_append_some hk)
          · rw [if_neg hcond] at h
            cases hins : insertAssert idx ((label : String), (none : Option String)) (EntV.lbl e) with
            | none =>
              rw [hins] at h
              cases h
            | some idx' =>
              rw [hins] at h
              obtain ⟨hfresh, rfl⟩ := insertAssert_some hins
              exact ih _ _ out h k v (lookupA_append_some hk)

theorem labelGroups_good (rs : List Rec) :
    ((labelGroups rs).map Prod.fst).Nodup ∧ ∀ g ∈ labelGroups rs, g.2 ≠ [] := by
  refine foldl_preserve
    (P := fun m : List (String × List String) =>
      (m.map Prod.fst).Nodup ∧ ∀ g ∈ m, g.2 ≠ []) ?_ rs [] ⟨by simp, by simp⟩
  intro m r hm
  exact ⟨pushA_keys_nodup _ _ hm.1, pushA_vals_ne_nil _ _ hm.2⟩

theorem runKG_spec (check keep : Bool) (rs : List Rec) :
    ∃ idx, runKG check keep rs = some idx ∧ (idx.map Prod.fst).Nodup := by
  obtain ⟨hg1, hg2⟩ := labelGroups_good rs
  obtain ⟨⟨idx1, pend1⟩, hrun1, hn1, hq1, hpn1, hpv1⟩ :=
    kgPhase1_spec check (if check then retainPool (aliasPool rs) else []) rs
      (labelGroups rs) [] [] hg1 hg2 (fun g hg => rfl) (by simp) (by simp) (by simp) (by simp)
  have hperm := stableSort_perm pendLeB pend1
  have hpn' : ((stableSort pendLeB pend1).map Prod.fst).Nodup :=
    ((hperm.map Prod.fst).nodup_iff).mpr hpn1
  have hpv' : ∀ p ∈ stableSort pendLeB pend1, p.2 ≠ [] :=
    fun p hp => hpv1 p (hperm.mem_iff.mp hp)
  have hfresh : ∀ q ∈ (stableSort pendLeB pend1).map Prod.fst,
      lookupA idx1 ((q.1 : String), some q.2) = none := by
    intro q hq
    rw [lookupA_eq_none_iff]
    intro hmem
    have := hq1 _ hmem
    simp at this
  obtain ⟨⟨idx2, left2⟩, hrun2, hn2⟩ :=
    kgPhase2_spec check keep (if check then retainPool (aliasPool rs) else []) rs
      (stableSort pendLeB pend1) idx1 [] hpn' hpv' hfresh hn1
  refine ⟨kgPhase3 rs idx2, ?_, kgPhase3_nodup rs idx2 hn2⟩
  simp only [runKG]
  rw [hrun1]
  dsimp only
  rw [hrun2]

/-! ## C1: the claim theorem -/

/-- C1 (amended): in the `kg-entities` engine the claim holds in full — for every
input and configuration the run completes, the final index binds every key exactly
once, and each phase only ever extends the index, so a key committed at any point
keeps its id through every later insertion; the alias back-fill of
`wikidata-entities` preserves committed keys as well (its qualified-label pass does
not, see the counterexample). -/
theorem c1_kg_unique_first_writer_wins :
    (∀ (check keep : Bool) (rs : List Rec),
      ∃ idx, runKG check keep rs = some idx ∧ (idx.map Prod.fst).Nodup)
    ∧ (∀ (check : Bool) (pool : Pool) (rs : List Rec) (gs : List (String × List String))
        (idx : Index) (pend : Pending) (out : Index × Pending),
        kgPhase1 check pool rs gs idx pend = some out →
        ∀ k v, lookupA idx k = some v → lookupA out.1 k = some v)
    ∧ (∀ (check keep : Bool) (pool : Pool) (rs : List Rec) (pend : Pending)
        (idx : Index) (left : List String) (out : Index × List String),
        kgPhase2 check keep pool rs pend idx left = some out →
        ∀ k v, lookupA idx k = some v → lookupA out.1 k = some v)
    ∧ (∀ (rs : List Rec) (idx : Index) (k : SKey) (v : EntV),
        lookupA idx k = some v → lookupA (kgPhase3 rs idx) k = some v)
    ∧ (∀ (rs : List Rec) (left : List String) (idx : WIndex) (k : String) (v : WEnt),
        lookupA idx k = some v → lookupA (wdPhase3 rs left idx) k = some v) :=
  ⟨runKG_spec,
   fun check pool rs gs idx pend out h k v hk => kgPhase1_mono check pool rs gs idx pend out h k v hk,
   fun check keep pool rs pend idx left out h k v hk =>
     kgPhase2_mono check keep pool rs pend idx left out h k v hk,
   kgPhase3_mono,
   wdPhase3_mono⟩

/-- C1 witness: the monotonicity conjuncts applied at a concrete index — a key
committed before the alias back-fill keeps its id through it. -/
theorem c1_witness :
    lookupA (kgPhase3 [] [((("a" : String), (none : Option String)), EntV.lbl "Q1")])
      (("a" : String), (none : Option String)) = some (EntV.lbl "Q1") :=
  c1_kg_unique_first_writer_wins.2.2.2.1 [] [((("a" : String), none), EntV.lbl "Q1")]
    ("a", none) (EntV.lbl "Q1") rfl

/-! ## C2 (amended): the kg-entities qualified-pass priority -/

/-- C2 (amended, `kg-entities` part): when the qualified pass reaches a singleton
group `(label, info)` and the run completes, the bare key `(label, none)` is
committed to the member as an `OwnLabel` assignment exactly when it is still free
and the enabled oracle does not veto; otherwise the qualified key
`(label, some info)` is committed as `OwnLabelQualified` (the `wikidata-entities`
variant instead always commits the qualified key, see the counterexample). -/
theorem c2_kg_singleton_prefers_bare_key :
    ∀ (check keep : Bool) (pool : Pool) (rs : List Rec) (label info : String) (c : Nat)
      (e : String) (pend : Pending) (idx : Index) (left : List String)
      (out : Index × List String),
      kgPhase2 check keep pool rs (((label, info), [(c, e)]) :: pend) idx left = some out →
      ((lookupA idx ((label : String), (none : Option String)) = none ∧
          (check && (checkForMorePopularAlias pool rs label e).isSome) = false →
          lookupA out.1 ((label : String), (none : Option String)) = some (EntV.lbl e))
        ∧ ((lookupA idx ((label : String), (none : Option String))).isSome = true ∨
            (check && (checkForMorePopularAlias pool rs label e).isSome) = true →
            lookupA out.1 ((label : String), some info) = some (EntV.lblInfo e))) := by
  intro check keep pool rs label info c e pend idx left out h
  constructor
  · rintro ⟨hfree, hveto⟩
    rw [kgPhase2] at h
    have hcond : ¬ (((lookupA idx ((label : String), (none : Option String))).isSome
        || (check && (checkForMorePopularAlias pool rs label e).isSome)) = true) := by
      simp [hfree, hveto]
    rw [if_neg hcond] at h
    cases hins : insertAssert idx ((label : String), (none : Option String)) (EntV.lbl e) with
    | none =>
      rw [hins] at h
      cases h
    | some idx' =>
      rw [hins] at h
      obtain ⟨hfr, rfl⟩ := insertAssert_some hins
      exact kgPhase2_mono check keep pool rs pend _ left out h _ _
        (lookupA_append_fresh hfree)
  · intro hcase
    rw [kgPhase2] at h
    have hcond : ((lookupA idx ((label : String), (none : Option String))).isSome
        || (check && (checkForMorePopularAlias pool rs label e).isSome)) = true := by
      rcases hcase with h1 | h1 <;> simp [h1]
    rw [if_pos hcond] at h
    cases hins : insertAssert idx ((label : String), some info) (EntV.lblInfo e) with
    | none =>
      rw [hins] at h
      cases h
    | some idx' =>
      rw [hins] at h
      obtain ⟨hfr, rfl⟩ := insertAssert_some hins
      exact kgPhase2_mono check keep pool rs pend _ left out h _ _
        (lookupA_append_fresh hfr)

/-- C2 witness: the theorem applied to a concrete singleton group with a free bare
key and no veto. -/
theorem c2_witness :
    lookupA [((("L" : String), (none : Option String)), EntV.lbl "QA")]
      (("L" : String), (none : Option String)) = some (EntV.lbl "QA") :=
  (c2_kg_singleton_prefers_bare_key false false [] [] "L" "x" 1 "QA" [] [] []
    ([((("L" : String), (none : Option String)), EntV.lbl "QA")], []) rfl).1 ⟨rfl, rfl⟩

/-! ## C5 (amended): the wikidata-entities multi-member label groups -/

/-- The veto condition written with `!` and `isNone` (as in the code) agrees with
its `&&`/`isSome` phrasing. -/
theorem veto_bool (check : Bool) (x : Option String) :
    ((!check || x.isNone) = true) ↔ ((check && x.isSome) = false) := by
  cases check <;> cases x <;> simp

/-- C5 (amended, `wikidata-entities` part): a label group with more than one member
under `keep_most_common_non_unique` picks the stably-last member of the
ascending-by-count sort — a member of maximal frequency; if the enabled oracle does
not veto, the bare label is committed to it and only the remaining members are
pushed to the qualified pool; if the oracle vetoes, nothing is committed and all
members (winner included) are pushed (in `kg-entities` no bare key is committed for
such a group at all, see the counterexample). -/
theorem c5_wd_keeps_most_frequent :
    ∀ (check : Bool) (pool : Pool) (rs : List Rec) (idx : WIndex) (pend : WPending)
      (label : String) (ents : List String),
      1 < ents.length →
      ∃ w rest, stableSort (cntLeB rs) ents = rest ++ [w] ∧
        (∀ e ∈ ents, cntOf rs e ≤ cntOf rs w) ∧
        ((check && (checkForMorePopularAlias pool rs label w).isSome) = false →
          wdGroupStep check true pool rs (idx, pend) label ents =
            (insertRep idx label (WEnt.lbl w),
             wdPushPend rs (insertRep idx label (WEnt.lbl w)) pend label rest)) ∧
        ((check && (checkForMorePopularAlias pool rs label w).isSome) = true →
          wdGroupStep check true pool rs (idx, pend) label ents =
            (idx, wdPushPend rs idx pend label (rest ++ [w]))) := by
  intro check pool rs idx pend label ents hlen
  rcases ents with _ | ⟨e1, rest1⟩
  · simp at hlen
  rcases rest1 with _ | ⟨e2, es⟩
  · simp at hlen
  obtain ⟨w, hL⟩ := stableSort_getLast_exists (cntLeB rs) (l := e1 :: e2 :: es) (by simp)
  have hdecomp := getLast?_decomp hL
  refine ⟨w, (stableSort (cntLeB rs) (e1 :: e2 :: es)).dropLast, hdecomp.symm, ?_, ?_, ?_⟩
  · intro e he
    have hle := stableSort_getLast_max (cntLeB_trans rs) (cntLeB_total rs) hL e he
    simpa [cntLeB, Nat.ble_eq] using hle
  · intro hveto
    have hcond : (!check || (checkForMorePopularAlias pool rs label w).isNone) = true :=
      (veto_bool check _).mpr hveto
    simp only [wdGroupStep, hL, hcond]
    simp
  · intro hveto
    have hcond : (!check || (checkForMorePopularAlias pool rs label w).isNone) = false := by
      rcases hb : (!check || (checkForMorePopularAlias pool rs label w).isNone) with _ | _
      · rfl
      · rw [(veto_bool check _).mp hb] at hveto
        cases hveto
    simp only [wdGroupStep, hL, hcond]
    simp [hdecomp]

/-- C5 witness: the theorem applied to the concrete two-member group of `c5wrecs`. -/
theorem c5_witness :
    1 < (["QA", "QB"] : List String).length ∧
    (∃ w rest, stableSort (cntLeB c5wrecs) ["QA", "QB"] = rest ++ [w] ∧
      (∀ e ∈ (["QA", "QB"] : List String), cntOf c5wrecs e ≤ cntOf c5wrecs w) ∧
      ((false && (checkForMorePopularAlias [] c5wrecs "L" w).isSome) = false →
        wdGroupStep false true [] c5wrecs ([], []) "L" ["QA", "QB"] =
          (insertRep [] "L" (WEnt.lbl w),
           wdPushPend c5wrecs (insertRep [] "L" (WEnt.lbl w)) [] "L" rest)) ∧
      ((false && (checkForMorePopularAlias [] c5wrecs "L" w).isSome) = true →
        wdGroupStep false true [] c5wrecs ([], []) "L" ["QA", "QB"] =
          ([], wdPushPend c5wrecs [] [] "L" (rest ++ [w])))) :=
  ⟨by decide, c5_wd_keeps_most_frequent false [] c5wrecs [] [] "L" ["QA", "QB"] (by decide)⟩

/-! ## C3: the Popular-Alias Oracle -/

theorem aliasPool_vals_ne_nil (rs : List Rec) : ∀ p ∈ aliasPool rs, p.2 ≠ [] := by
  refine foldl_preserve (P := fun m : Pool => ∀ p ∈ m, p.2 ≠ []) ?_ rs [] (by simp)
  intro m r hm
  exact foldl_preserve (P := fun m : Pool => ∀ p ∈ m, p.2 ≠ [])
    (fun m a hm => pushA_vals_ne_nil _ _ hm) _ _ hm

theorem aliasPool_keys_nodup (rs : List Rec) : ((aliasPool rs).map Prod.fst).Nodup := by
  refine foldl_preserve (P := fun m : Pool => (m.map Prod.fst).Nodup) ?_ rs [] (by simp)
  intro m r hm
  exact foldl_preserve (P := fun m : Pool => (m.map Prod.fst).Nodup)
    (fun m a hm => pushA_keys_nodup _ _ hm) _ _ hm

theorem retainPool_lookup_singleton (rs : List Rec) {label : String} {ents : List String}
    (h : lookupA (retainPool (aliasPool rs)) label = some ents) : ∃ x, ents = [x] := by
  have hmem := lookupA_mem h
  rw [retainPool, List.mem_filter] at hmem
  obtain ⟨hmem, hlen⟩ := hmem
  have hne := aliasPool_vals_ne_nil rs _ hmem
  rcases ents with _ | ⟨x, rest⟩
  · exact absurd rfl hne
  · rcases rest with _ | ⟨y, t⟩
    · exact ⟨x, rfl⟩
    · have := of_decide_eq_true hlen
      simp at this

/-- C3: the Popular-Alias Oracle returns another id exactly when the retained alias
pool lists, for the contested label, an entity distinct from the candidate with
strictly greater frequency — in particular a frequency tie never triggers an
override (second conjunct). -/
theorem c3_oracle_characterization :
    (∀ (rs : List Rec) (label ent e' : String),
       checkForMorePopularAlias (retainPool (aliasPool rs)) rs label ent = some e' ↔
         ((∃ ents, lookupA (retainPool (aliasPool rs)) label = some ents ∧ e' ∈ ents) ∧
           e' ≠ ent ∧ cntOf rs ent < cntOf rs e'))
    ∧ (∀ (rs : List Rec) (label ent : String),
        (∀ e' ents, lookupA (retainPool (aliasPool rs)) label = some ents → e' ∈ ents →
          e' ≠ ent → cntOf rs e' ≤ cntOf rs ent) →
        checkForMorePopularAlias (retainPool (aliasPool rs)) rs label ent = none) := by
  have hmain : ∀ (rs : List Rec) (label ent e' : String),
      checkForMorePopularAlias (retainPool (aliasPool rs)) rs label ent = some e' ↔
        ((∃ ents, lookupA (retainPool (aliasPool rs)) label = some ents ∧ e' ∈ ents) ∧
          e' ≠ ent ∧ cntOf rs ent < cntOf rs e') := by
    intro rs label ent e'
    rcases hp : lookupA (retainPool (aliasPool rs)) label with _ | ents
    · simp [checkForMorePopularAlias, hp]
    · obtain ⟨x, rfl⟩ := retainPool_lookup_singleton rs hp
      by_cases hxe : x = ent
      · subst hxe
        simp only [checkForMorePopularAlias, hp]
        simp [List.filter, maxByCnt]
        intro h1 h2
        exact absurd h1 h2
      · have hb : (x != ent) = true := bne_iff_ne.mpr hxe
        simp only [checkForMorePopularAlias, hp]
        have hfil : List.filter (fun e => e != ent) [x] = [x] := by
          simp [List.filter, hb]
        rw [hfil]
        simp only [List.map_cons, List.map_nil, maxByCnt, List.foldl]
        by_cases hcnt : cntOf rs ent < cntOf rs x
        · rw [if_pos hcnt]
          constructor
          · intro hsome
            have hx : x = e' := Option.some.inj hsome
            subst hx
            exact ⟨⟨[x], rfl, by simp⟩, hxe, hcnt⟩
          · rintro ⟨⟨ents2, hl2, hm2⟩, hne2, hlt2⟩
            have hents : ents2 = [x] := (Option.some.inj hl2).symm
            subst hents
            simp only [List.mem_singleton] at hm2
            rw [hm2]
        · rw [if_neg hcnt]
          constructor
          · intro hnone
            cases hnone
          · rintro ⟨⟨ents2, hl2, hm2⟩, hne2, hlt2⟩
            have hents : ents2 = [x] := (Option.some.inj hl2).symm
            subst hents
            simp only [List.mem_singleton] at hm2
            rw [hm2] at hlt2
            exact absurd hlt2 hcnt
  refine ⟨hmain, ?_⟩
  intro rs label ent hbound
  rcases hres : checkForMorePopularAlias (retainPool (aliasPool rs)) rs label ent with _ | e'
  · rfl
  · exfalso
    obtain ⟨⟨ents, hle, hmem⟩, hne, hlt⟩ := (hmain rs label ent e').mp hres
    exact absurd hlt (Nat.not_lt.mpr (hbound e' ents hle hmem hne))

/-- C3 witness: a concrete frequency tie — entity `QX` has alias "m" with the same
frequency as the candidate `QE` holding label "m", and the oracle returns none. -/
theorem c3_witness :
    checkForMorePopularAlias (retainPool (aliasPool c3recs)) c3recs "m" "QE" = none := by
  refine c3_oracle_characterization.2 c3recs "m" "QE" ?_
  intro e' ents hl hm hne
  have hents : ents = ["QX"] := by
    have h0 : lookupA (retainPool (aliasPool c3recs)) "m" = some ["QX"] := rfl
    exact Option.some.inj (hl.symm.trans h0)
  rw [hents] at hm
  simp only [List.mem_singleton] at hm
  rw [hm]
  decide

/-! ## C7: alias occurrence counting -/

theorem lenAt_pushA (m : Pool) (k : String) (v : String) (a : String) :
    (((lookupA (pushA m k v) a).map List.length).getD 0)
      = (((lookupA m a).map List.length).getD 0) + (if k = a then 1 else 0) := by
  by_cases hk : k = a
  · subst hk
    rw [lookupA_pushA_self]
    rcases h : lookupA m k with _ | l <;> simp [h]
  · rw [lookupA_pushA_ne _ _ _ hk, if_neg hk]
    simp

theorem lenAt_aliasFold (e : String) (a : String) :
    ∀ (aliases : List String) (m : Pool),
      (((lookupA (aliases.foldl (fun m al => pushA m al e) m) a).map List.length).getD 0)
        = (((lookupA m a).map List.length).getD 0) + aliases.count a := by
  intro aliases
  induction aliases with
  | nil => simp
  | cons x xs ih =>
    intro m
    have hstep : (x :: xs).foldl (fun m al => pushA m al e) m
        = xs.foldl (fun m al => pushA m al e) (pushA m x e) := rfl
    rw [hstep, ih, lenAt_pushA]
    have hcnt : (x :: xs).count a = xs.count a + (if x = a then 1 else 0) := by
      simp only [List.count_cons]
      by_cases hx : x = a
      · simp [hx]
      · have : (x == a) = false := by
          simp [hx]
        simp [this, hx]
    omega

theorem lenAt_aliasPool (rs : List Rec) (a : String) :
    (((lookupA (aliasPool rs) a).map List.length).getD 0) = occCount rs a := by
  suffices h : ∀ m : Pool,
      (((lookupA (rs.foldl (fun m r => r.aliases.foldl (fun m al => pushA m al r.id) m) m) a).map
        List.length).getD 0)
        = (((lookupA m a).map List.length).getD 0) + occCount rs a by
    simpa [aliasPool, lookupA] using h []
  induction rs with
  | nil => simp [occCount]
  | cons r rs ih =>
    intro m
    have hstep : (r :: rs).foldl (fun m r => r.aliases.foldl (fun m al => pushA m al r.id) m) m
        = rs.foldl (fun m r => r.aliases.foldl (fun m al => pushA m al r.id) m)
            (r.aliases.foldl (fun m al => pushA m al r.id) m) := rfl
    rw [hstep, ih, lenAt_aliasFold]
    have hocc : occCount (r :: rs) a = r.aliases.count a + occCount rs a := by
      simp [occCount]
    omega

theorem lookupA_filter_of_nodup {α : Type} [DecidableEq α] {β : Type}
    {m : List (α × β)} (hnd : (m.map Prod.fst).Nodup) (p : α × β → Bool) {k : α} {v : β}
    (h : lookupA m k = some v) (hp : p (k, v) = true) :
    lookupA (m.filter p) k = some v := by
  have hmem : (k, v) ∈ m.filter p := List.mem_filter.mpr ⟨lookupA_mem h, hp⟩
  refine mem_lookupA_of_nodup ?_ hmem
  exact List.Nodup.sublist ((List.filter_sublist m).map Prod.fst) hnd

/-- C7 (amended): an alias stays in the oracle's retained pool exactly when it is
listed once across all records counted with multiplicity — so an alias listed twice
by a single record is discarded even though it references one distinct id; and the
pool group for an alias collects exactly its listing occurrences. -/
theorem c7_retained_iff_single_occurrence :
    ∀ (rs : List Rec) (a : String),
      ((lookupA (retainPool (aliasPool rs)) a).isSome = true ↔ occCount rs a = 1)
      ∧ (∀ ents, lookupA (aliasPool rs) a = some ents → ents.length = occCount rs a) := by
  intro rs a
  have hlen : ∀ ents, lookupA (aliasPool rs) a = some ents → ents.length = occCount rs a := by
    intro ents h
    have := lenAt_aliasPool rs a
    rw [h] at this
    simpa using this
  refine ⟨⟨?_, ?_⟩, hlen⟩
  · intro hsome
    obtain ⟨ents, hents⟩ := Option.isSome_iff_exists.mp hsome
    have hmem := lookupA_mem hents
    rw [retainPool, List.mem_filter] at hmem
    obtain ⟨hmem, hle⟩ := hmem
    have h1 : lookupA (aliasPool rs) a = some ents :=
      mem_lookupA_of_nodup (aliasPool_keys_nodup rs) hmem
    have h2 := hlen ents h1
    have h3 := aliasPool_vals_ne_nil rs _ hmem
    have h4 := of_decide_eq_true hle
    rcases ents with _ | ⟨x, rest⟩
    · exact absurd rfl h3
    · simp only [List.length_cons] at h2 h4
      omega
  · intro hocc
    rcases h : lookupA (aliasPool rs) a with _ | ents
    · have := lenAt_aliasPool rs a
      rw [h] at this
      simp at this
      omega
    · have h2 := hlen ents h
      have hflt : lookupA (retainPool (aliasPool rs)) a = some ents := by
        refine lookupA_filter_of_nodup (aliasPool_keys_nodup rs) _ h ?_
        simp only [decide_eq_true_eq]
        omega
      rw [hflt]
      rfl

/-- C7 witness: the pool group of the duplicated alias "x" has length 2, its
occurrence count. -/
theorem c7_witness : (["QA", "QA"] : List String).length = occCount [c7rec] "x" :=
  (c7_retained_iff_single_occurrence [c7rec] "x").2 ["QA", "QA"] rfl

/-! ## C8 (amended): redirect error handling -/

theorem mapCaps_eq_none (cap : String → Option String) :
    ∀ (tgts : List String) (t : String), t ∈ tgts → cap t = none →
      mapCaps cap tgts = none := by
  intro tgts
  induction tgts with
  | nil =>
    intro t ht
    simp at ht
  | cons x xs ih =>
    intro t ht hn
    rcases List.mem_cons.mp ht with rfl | hmem
    · rw [mapCaps, hn]
    · rw [mapCaps]
      rcases hx : cap x with _ | e
      · rfl
      · rw [ih t hmem hn]
        rfl

/-- C8 (amended): a redirect line whose source does not match the identifier pattern
is skipped and processing continues with the remaining lines; but if the source
matches and any target does not, the whole run aborts (the `panic!` on the target
side), so the offending line is fatal rather than skipped. -/
theorem c8_source_skipped_target_fatal :
    ∀ (cap : String → Option String) (src : String) (tgts : List String)
      (rest acc : List (String × List String)),
      ((cap src = none →
        processRedirects cap ((src, tgts) :: rest) acc = processRedirects cap rest acc)
      ∧ (∀ ent t, cap src = some ent → t ∈ tgts → cap t = none →
          processRedirects cap ((src, tgts) :: rest) acc = none)) := by
  intro cap src tgts rest acc
  constructor
  · intro h
    rw [processRedirects, h]
  · intro ent t hsrc ht hn
    rw [processRedirects, hsrc, mapCaps_eq_none cap tgts t ht hn]

/-- C8 witness: the theorem applied to a concrete line with a matching source and a
non-matching target. -/
theorem c8_witness : processRedirects capQ [("Q1", ["BAD"])] [] = none :=
  (c8_source_skipped_target_fatal capQ "Q1" ["BAD"] [] []).2 "Q1" "BAD" (by decide)
    (by simp) (by decide)
